import Mathlib

/-! Watcher: the active-window tracker and the watch loop.

A shallow embedding of `cmd/watch_command.go`:

* `XDisplay.IsActiveWindowChange` (lines 80-127) and `stringInSlice` (lines 154-161);
* the body of the endless `for` loop of `watchCommand.Run` (lines 199-214), started from
  the state built at lines 172-193.

Go strings are byte strings and are modelled as lists of bytes (`List Nat`).  A
`time.Duration` is a signed 64-bit count of nanoseconds and is modelled as an `Int`
with explicit wrap-around on addition.  A `time.Time` obtained from `time.Now()` is
modelled by its monotonic clock reading, in nanoseconds.
-/

namespace Watcher

/-! ## Strings -/

/-- A Go `string`: an immutable sequence of bytes. -/
abbrev GoString := List Nat

/-- The Go string literal with the given (ASCII) text. -/
def str (s : String) : GoString := s.toList.map Char.toNat

/-- Go `strings.IndexByte`: position of the first byte equal to `c`, if any. -/
def IndexByte : GoString → Nat → Option Nat
  | [], _ => none
  | b :: s, c => if b = c then some 0 else (IndexByte s c).map (· + 1)

/-- The loop of Go `strings.genSplit` for the one-byte separator `"\x00"`: at most `n`
cuts are made, each at the first remaining separator; the rest is the last element. -/
def splitLoop : Nat → GoString → List GoString
  | 0, s => [s]
  | n + 1, s =>
    match IndexByte s 0 with
    | none => [s]
    | some m => s.take m :: splitLoop n (s.drop (m + 1))

/-- Go `strings.Split(s, "\x00")`: `strings.Count(s, "\x00") + 1` elements. -/
def SplitNul (s : GoString) : List GoString := splitLoop (s.count 0) s

/-- Go `strings.HasPrefix`. -/
def HasPrefix : GoString → GoString → Bool
  | _, [] => true
  | [], _ :: _ => false
  | b :: s, c :: p => if b = c then HasPrefix s p else false

/-- Go `strings.Contains(s, substr)`: `substr` occurs at some position of `s`. -/
def Contains : GoString → GoString → Bool
  | [], substr => HasPrefix [] substr
  | b :: s, substr => HasPrefix (b :: s) substr || Contains s substr

/-- Lines 154-161: linear search of `str` in `slice`. -/
def stringInSlice (str : GoString) : List GoString → Bool
  | [] => false
  | s :: slice => if str = s then true else stringInSlice str slice

/-! ## The tracker -/

/-- The in-memory ledger `map[string]time.Duration`, as an association list.  Reading a
missing key gives the zero duration, as in Go. -/
abbrev Ledger := List (GoString × Int)

/-- Map read `m[k]`. -/
def Ledger.get : Ledger → GoString → Int
  | [], _ => 0
  | (k', v) :: m, k => if k' = k then v else Ledger.get m k

/-- Map write `m[k] = v`. -/
def Ledger.set : Ledger → GoString → Int → Ledger
  | [], k, v => [(k, v)]
  | (k', v') :: m, k, v => if k' = k then (k, v) :: m else (k', v') :: Ledger.set m k v

/-- Sum of all the entries of the ledger. -/
def Ledger.total (m : Ledger) : Int := (m.map Prod.snd).sum

/-- Lines 73-78, without the connection handle `X`, which is represented by the replies
of the X server (`XServer`) at each poll. -/
structure XDisplay where
  Usage : Ledger
  ActiveWindow : GoString
  PreviousWindow : GoString
deriving DecidableEq

/-- An error returned by a request to the X server. -/
structure XError where
  code : Nat
deriving DecidableEq

/-- What the X server answers during one poll: the reply to `GetInputFocus` (the focused
window) and the replies to `GetProperty` for a window and an atom. -/
structure XServer where
  GetInputFocus : Except XError Nat
  GetProperty : Nat → Nat → Except XError GoString

/-- The predefined atom `xproto.AtomWmClass`. -/
def AtomWmClass : Nat := 67

/-- The predefined atom `xproto.AtomWmName`. -/
def AtomWmName : Nat := 39

/-- Lines 106-109. -/
def terminals : List GoString :=
  [str "Kitty", str "Alacritty", str "Terminator", str "Tilda", str "Guake", str "Yakuake",
   str "Roxterm", str "Eterm", str "Rxvt", str "Xterm", str "Tilix", str "Lxterminal",
   str "Konsole", str "St", str "Gnome-terminal", str "Xfce4-terminal", str "Terminology",
   str "Extraterm"]

/-- Lines 96-102: the application name read from the `WM_CLASS` value. -/
def rawAppName (awClass : GoString) : GoString :=
  let appNameParts := SplitNul awClass
  if appNameParts.length > 1 then appNameParts.getD 1 [] else str "Unknown"

/-- Lines 96-119: the value of `appName` when line 121 is reached, as a function of the
tracker's `ActiveWindow` at the start of the call and of the two property values. -/
def normalizedName (activeWindow awClass awTitle : GoString) : GoString :=
  let appName := rawAppName awClass
  let activeWindowTitle := awTitle
  if stringInSlice activeWindow terminals then
    if Contains activeWindowTitle (str "Nvim") then str "NeoVim"
    else if Contains activeWindowTitle (str "Vim") then str "Vim"
    else if Contains activeWindowTitle (str "NVIM") then str "LunarVim"
    else appName
  else appName

/-- Lines 80-127.  The result is the tracker after the call and the two returned values
(`changed`, `err`). -/
def IsActiveWindowChange (x : XServer) (d : XDisplay) : XDisplay × Bool × Option XError :=
  match x.GetInputFocus with
  | .error err => (d, false, some err)
  | .ok aw =>
    match x.GetProperty aw AtomWmClass with
    | .error err => (d, false, some err)
    | .ok awClass =>
      match x.GetProperty aw AtomWmName with
      | .error err => (d, false, some err)
      | .ok awTitle =>
        let appName := normalizedName d.ActiveWindow awClass awTitle
        if d.ActiveWindow ≠ appName then
          ({ d with PreviousWindow := d.ActiveWindow, ActiveWindow := appName }, true, none)
        else (d, false, none)

/-- An X server on which the three requests of a poll succeed, with the given `WM_CLASS`
and `WM_NAME` values for the focused window. -/
def XServer.report (awClass awTitle : GoString) : XServer where
  GetInputFocus := .ok 1
  GetProperty := fun _ atom => if atom = AtomWmClass then .ok awClass else .ok awTitle

/-! ## The watch loop -/

/-- Wrap-around of a mathematical integer to a signed 64-bit integer. -/
def wrapInt64 (x : Int) : Int := (x + 2 ^ 63) % 2 ^ 64 - 2 ^ 63

/-- The constant `maxDuration` of package `time`. -/
def maxDuration : Int := 2 ^ 63 - 1

/-- The constant `minDuration` of package `time`. -/
def minDuration : Int := -(2 ^ 63)

/-- Go `time.Since(startTime)` for a `startTime` that carries a monotonic reading, as every
value of `time.Now()` does: the saturating difference `subMono(now, startTime)` of the
two monotonic readings, `now` being the reading taken inside `time.Since`. -/
def timeSince (now startTime : Int) : Int :=
  let d := wrapInt64 (now - startTime)
  if d < 0 ∧ now > startTime then maxDuration
  else if d > 0 ∧ now < startTime then minDuration
  else d

/-- One call `db.InsertOrUpdateAppUsage(appName, date, usage)` (lines 55-62). -/
structure DBCall where
  appName : GoString
  date : GoString
  usage : Int
deriving DecidableEq

/-- The variables of `watchCommand.Run` that live across iterations of the loop: the
tracker, the segment start `startTime`, and the calls made to `InsertOrUpdateAppUsage` so
far, oldest first. -/
structure LoopState where
  display : XDisplay
  db : List DBCall
  startTime : Int

/-- What one iteration of the loop reads from outside: the replies of the X server to the
poll, the monotonic clock reading taken by `time.Since` at line 207 and the one taken by
`time.Now` at line 210.  The two readings are used only when a change is detected. -/
structure Tick where
  x : XServer
  since : Int
  now : Int

/-- Lines 172-177 and 193: empty tracker, no call made, `startTime` read from the clock. -/
def initialState (startTime : Int) : LoopState where
  display := { Usage := [], ActiveWindow := [], PreviousWindow := [] }
  db := []
  startTime := startTime

/-- Lines 200-213, one iteration of the loop (printing and sleeping leave the state
unchanged and are not represented). -/
def loopBody (date : GoString) (s : LoopState) (t : Tick) : LoopState :=
  match IsActiveWindowChange t.x s.display with
  | (display, _, some _) => { s with display := display }
  | (display, isActiveWindowChanged, none) =>
    if isActiveWindowChanged then
      let usage := display.Usage.set display.PreviousWindow
        (wrapInt64 (display.Usage.get display.PreviousWindow + timeSince t.since s.startTime))
      { display := { display with Usage := usage }
        db := s.db ++ [⟨display.PreviousWindow, date, usage.get display.PreviousWindow⟩]
        startTime := t.now }
    else { s with display := display }

/-- The loop run over a finite sequence of iterations. -/
def runLoop (date : GoString) (s : LoopState) (ticks : List Tick) : LoopState :=
  ticks.foldl (loopBody date) s

/-! ## Observations of a run -/

/-- A segment: the application that was the tracker's `ActiveWindow` while the segment
lasted, the value of `startTime` during the segment, and the clock reading of `time.Since`
at the detected change that ended it. -/
structure Segment where
  app : GoString
  start : Int
  stop : Int
deriving DecidableEq

/-- Length of a segment. -/
def Segment.length (g : Segment) : Int := g.stop - g.start

/-- The segments closed during a run, oldest first: one for each iteration at which a
change is detected. -/
def segmentsFrom (date : GoString) : LoopState → List Tick → List Segment
  | _, [] => []
  | s, t :: ticks =>
    (match IsActiveWindowChange t.x s.display with
      | (_, true, none) => [⟨s.display.ActiveWindow, s.startTime, t.since⟩]
      | _ => []) ++ segmentsFrom date (loopBody date s t) ticks

/-- Total length of the segments of application `app`. -/
def creditSum (app : GoString) (segs : List Segment) : Int :=
  ((segs.filter (fun g => g.app = app)).map Segment.length).sum

/-- Time between the end of each segment and the start of the next one. -/
def flushGaps : List Segment → Int
  | a :: b :: segs => (b.start - a.stop) + flushGaps (b :: segs)
  | _ => 0

/-- The clock reading at the last detected change, or the loop start when there is none. -/
def lastChangeAt (start : Int) (segs : List Segment) : Int :=
  match segs.getLast? with
  | some g => g.stop
  | none => start

/-- The clock readings of a run are well formed: they are monotonic readings of the Go
runtime (non-negative, below `2 ^ 63`) and they never decrease along the run, from the
reading `t0` on. -/
def clockOK : Int → List Tick → Bool
  | t0, [] => decide (0 ≤ t0) && decide (t0 < 2 ^ 63)
  | t0, t :: ticks =>
    decide (0 ≤ t0) && decide (t0 ≤ t.since) && decide (t.since ≤ t.now) && clockOK t.now ticks

/-- The duration `200 * time.Millisecond` of line 213, in nanoseconds. -/
def sleepTime : Int := 200000000

/-- The clock readings of a run respect the pace of the loop, from the reading `t0` on and
with the tracker `d`: within an iteration the readings do not decrease, and an iteration
that follows one whose poll succeeded starts at least `sleepTime` after the end of that
one (line 213); after a failed poll the loop continues at once (line 203). -/
def cadenceOK : XDisplay → Int → List Tick → Bool
  | _, _, [] => true
  | d, t0, t :: ticks =>
    decide (t0 ≤ t.since) && decide (t.since ≤ t.now) &&
      cadenceOK (IsActiveWindowChange t.x d).1
        (match (IsActiveWindowChange t.x d).2.2 with
          | some _ => t.now
          | none => t.now + sleepTime) ticks

/-- Every entry of the ledger is non-negative. -/
def Ledger.Nonneg (m : Ledger) : Prop := ∀ p ∈ m, 0 ≤ p.2

/-- Exact crediting of a segment to the ledger, without wrap-around. -/
def credit (m : Ledger) (g : Segment) : Ledger :=
  m.set g.app (m.get g.app + g.length)

/-- Exact crediting of a list of segments, oldest first. -/
def applyCredits (m : Ledger) (segs : List Segment) : Ledger := segs.foldl credit m

/-- The calls that flush the running total after each segment is credited. -/
def flushLog (date : GoString) : Ledger → List Segment → List DBCall
  | _, [] => []
  | m, g :: segs => ⟨g.app, date, m.get g.app + g.length⟩ :: flushLog date (credit m g) segs

/-! ## Inputs of the scenarios -/

/-- A poll that reports a window of class `Firefox`. -/
def firefox : XServer := XServer.report (str "Navigator\x00Firefox\x00") (str "Mozilla Firefox")

/-- A poll that reports a window of class `Kitty` with the given title. -/
def kitty (title : String) : XServer := XServer.report (str "kitty\x00Kitty\x00") (str title)

/-- A calendar date. -/
def someDate : GoString := str "2026-01-01"

/-- Two detected changes, each with a flush that takes 50 ns: readings 100 and 150 at the
first, 250 and 300 at the second. -/
def twoChanges : List Tick := [⟨firefox, 100, 150⟩, ⟨kitty "no editor", 250, 300⟩]

/-- A poll at clock reading `ns` with an instantaneous flush. -/
def pollAt (x : XServer) (ns : Int) : Tick := ⟨x, ns, ns⟩

/-- The scenario: Firefox for 1.0 s, Kitty titled "no editor" for 0.5 s, Kitty titled
"NVIM opened" for 0.3 s, then Firefox; one poll in the NVIM-titled segment. -/
def scenarioOnePoll : List Tick :=
  [pollAt firefox 0, pollAt firefox 500000000, pollAt (kitty "no editor") 1000000000,
   pollAt (kitty "NVIM opened") 1500000000, pollAt firefox 1800000000]

/-- Two detected changes at the pace of the loop, each with a flush that takes 50 ns:
readings 100 and 150 at the first, 200000250 and 200000300 at the second. -/
def twoChangesAtCadence : List Tick :=
  [⟨firefox, 100, 150⟩, ⟨kitty "no editor", 200000250, 200000300⟩]

/-! ## Strings: the library functions against their specifications -/

theorem stringInSlice_iff (s : GoString) (slice : List GoString) :
    stringInSlice s slice = true ↔ s ∈ slice := by
  induction slice with
  | nil => simp [stringInSlice]
  | cons a l ih =>
    by_cases h : s = a
    · simp [stringInSlice, h]
    · simp [stringInSlice, h, ih]

theorem HasPrefix_iff (s p : GoString) : HasPrefix s p = true ↔ p <+: s := by
  induction p generalizing s with
  | nil => simp [HasPrefix]
  | cons c p ih =>
    cases s with
    | nil => simp [HasPrefix]
    | cons b s =>
      by_cases h : b = c
      · subst h
        simp [HasPrefix, ih, List.cons_prefix_cons]
      · have h' : ¬ c = b := fun e => h e.symm
        simp [HasPrefix, h, h', List.cons_prefix_cons]

theorem Contains_iff (s substr : GoString) : Contains s substr = true ↔ substr <:+: s := by
  induction s with
  | nil =>
    cases substr <;> simp [Contains, HasPrefix]
  | cons b s ih =>
    simp only [Contains, Bool.or_eq_true, HasPrefix_iff, ih, List.infix_cons_iff]

theorem IndexByte_none (s : GoString) (c : Nat) (h : IndexByte s c = none) : c ∉ s := by
  induction s with
  | nil => simp
  | cons b s ih =>
    by_cases hb : b = c
    · simp [IndexByte, hb] at h
    · have hc : ¬ c = b := fun e => hb e.symm
      simp only [IndexByte, hb, if_false, Option.map_eq_none'] at h
      simp [hc, ih h]

theorem IndexByte_some (s : GoString) (c m : Nat) (h : IndexByte s c = some m) :
    s = s.take m ++ c :: s.drop (m + 1) ∧ c ∉ s.take m := by
  induction s generalizing m with
  | nil => simp [IndexByte] at h
  | cons b s ih =>
    by_cases hb : b = c
    · simp only [IndexByte, hb, if_true, Option.some.injEq] at h
      subst h
      simp [hb]
    · have hc : ¬ c = b := fun e => hb e.symm
      simp only [IndexByte, hb, if_false, Option.map_eq_some'] at h
      obtain ⟨k, hk, rfl⟩ := h
      obtain ⟨h1, h2⟩ := ih k hk
      refine ⟨?_, ?_⟩
      · simpa using h1
      · simp [hc, h2]

theorem splitLoop_eq_splitOn (n : Nat) (s : GoString) (h : s.count 0 ≤ n) :
    splitLoop n s = s.splitOn 0 := by
  induction n generalizing s with
  | zero =>
    have h0 : (0 : Nat) ∉ s := by
      intro hm
      have := List.count_pos_iff.mpr hm
      omega
    simp only [splitLoop, List.splitOn]
    rw [List.splitOnP_eq_single]
    intro x hx
    simp only [beq_iff_eq]
    rintro rfl
    exact h0 hx
  | succ n ih =>
    simp only [splitLoop]
    cases hi : IndexByte s 0 with
    | none =>
      have h0 := IndexByte_none s 0 hi
      simp only [List.splitOn]
      rw [List.splitOnP_eq_single]
      intro x hx
      simp only [beq_iff_eq]
      rintro rfl
      exact h0 hx
    | some m =>
      obtain ⟨h1, h2⟩ := IndexByte_some s 0 m hi
      have hc : (s.drop (m + 1)).count 0 ≤ n := by
        have e : s.count 0 = (s.take m).count 0 + ((0 : Nat) :: s.drop (m + 1)).count 0 := by
          conv_lhs => rw [h1]
          rw [List.count_append]
        rw [List.count_cons_self] at e
        omega
      simp only []
      rw [ih _ hc]
      conv_rhs => rw [h1]
      simp only [List.splitOn]
      rw [List.splitOnP_first]
      · intro x hx
        simp only [beq_iff_eq]
        rintro rfl
        exact h2 hx
      · simp

theorem SplitNul_eq_splitOn (s : GoString) : SplitNul s = s.splitOn 0 :=
  splitLoop_eq_splitOn _ s (Nat.le_refl _)

theorem splitOn_head (b : GoString) :
    ∃ r, b.splitOn 0 = b.takeWhile (fun c => decide (c ≠ 0)) :: r := by
  induction b with
  | nil => exact ⟨[], rfl⟩
  | cons c b ih =>
    obtain ⟨r, hr⟩ := ih
    simp only [List.splitOn] at hr ⊢
    by_cases hc : c = 0
    · subst hc
      exact ⟨List.splitOnP (fun x => x == 0) b, by simp⟩
    · refine ⟨r, ?_⟩
      simp [List.splitOnP_cons, hc, hr, List.takeWhile_cons]

/-! ## The tracker: one poll -/

theorem IsActiveWindowChange_ok (x : XServer) (d : XDisplay) (aw : Nat)
    (awClass awTitle : GoString) (hf : x.GetInputFocus = .ok aw)
    (hc : x.GetProperty aw AtomWmClass = .ok awClass)
    (ht : x.GetProperty aw AtomWmName = .ok awTitle) :
    IsActiveWindowChange x d =
      if d.ActiveWindow ≠ normalizedName d.ActiveWindow awClass awTitle then
        ({ d with PreviousWindow := d.ActiveWindow,
                  ActiveWindow := normalizedName d.ActiveWindow awClass awTitle }, true, none)
      else (d, false, none) := by
  simp only [IsActiveWindowChange, hf, hc, ht]

theorem IsActiveWindowChange_report (d : XDisplay) (awClass awTitle : GoString) :
    IsActiveWindowChange (XServer.report awClass awTitle) d =
      if d.ActiveWindow ≠ normalizedName d.ActiveWindow awClass awTitle then
        ({ d with PreviousWindow := d.ActiveWindow,
                  ActiveWindow := normalizedName d.ActiveWindow awClass awTitle }, true, none)
      else (d, false, none) :=
  IsActiveWindowChange_ok _ d 1 awClass awTitle rfl rfl rfl

/-- C9: for every `WM_CLASS` value, Go's split on the NUL byte is the split of the byte list
at every NUL; the raw application name is the second element of that split when there
is one and `"Unknown"` otherwise, so it is `"Unknown"` for the empty value and for every
value without a NUL byte, and in a value `a ++ NUL :: b` with no NUL in `a` it is the
part of `b` before the next NUL. -/
theorem rawAppName_spec (awClass : GoString) :
    SplitNul awClass = awClass.splitOn 0 ∧
    rawAppName awClass =
      (match awClass.splitOn 0 with
        | _ :: name :: _ => name
        | _ => str "Unknown") ∧
    (2 ≤ (awClass.splitOn 0).length ↔ 0 ∈ awClass) ∧
    (0 ∉ awClass → rawAppName awClass = str "Unknown") ∧
    rawAppName [] = str "Unknown" ∧
    (∀ a b : GoString, 0 ∉ a → awClass = a ++ 0 :: b →
      rawAppName awClass = b.takeWhile (fun c => decide (c ≠ 0))) := by
  have hsingle : 0 ∉ awClass → awClass.splitOn 0 = [awClass] := by
    intro h0
    simp only [List.splitOn]
    rw [List.splitOnP_eq_single]
    intro x hx
    simp only [beq_iff_eq]
    rintro rfl
    exact h0 hx
  have hfirst : ∀ a b : GoString, 0 ∉ a →
      (a ++ 0 :: b).splitOn 0 = a :: b.splitOn 0 := by
    intro a b ha
    simp only [List.splitOn]
    rw [List.splitOnP_first]
    · intro x hx
      simp only [beq_iff_eq]
      rintro rfl
      exact ha hx
    · simp
  have hraw : rawAppName awClass =
      (match awClass.splitOn 0 with
        | _ :: name :: _ => name
        | _ => str "Unknown") := by
    simp only [rawAppName, SplitNul_eq_splitOn]
    rcases awClass.splitOn 0 with _ | ⟨p, _ | ⟨q, r⟩⟩ <;> simp
  have hsplit : ∀ a b : GoString, 0 ∉ a → awClass = a ++ 0 :: b →
      rawAppName awClass = b.takeWhile (fun c => decide (c ≠ 0)) := by
    intro a b ha hab
    obtain ⟨r, hr⟩ := splitOn_head b
    rw [hraw, hab, hfirst a b ha, hr]
  refine ⟨SplitNul_eq_splitOn _, hraw, ?_, ?_, by decide, hsplit⟩
  · constructor
    · intro h2
      by_contra h0
      rw [hsingle h0] at h2
      simp at h2
    · intro h0
      obtain ⟨a, b, hab⟩ := List.append_of_mem h0
      have : ∃ a b : GoString, 0 ∉ a ∧ awClass = a ++ 0 :: b := by
        refine ⟨awClass.takeWhile (fun c => decide (c ≠ 0)),
          (awClass.dropWhile (fun c => decide (c ≠ 0))).tail, ?_, ?_⟩
        · intro hm
          have := List.mem_takeWhile_imp hm
          simp at this
        · have hne : awClass.dropWhile (fun c => decide (c ≠ 0)) ≠ [] := by
            intro he
            rw [List.dropWhile_eq_nil_iff] at he
            have := he 0 h0
            simp at this
          have hhd := List.head_dropWhile_not (fun c : Nat => decide (c ≠ 0)) awClass hne
          have hhd0 : (awClass.dropWhile (fun c => decide (c ≠ 0))).head hne = 0 := by
            simpa using hhd
          conv_lhs => rw [← List.takeWhile_append_dropWhile (fun c => decide (c ≠ 0)) awClass]
          congr 1
          conv_lhs => rw [← List.head_cons_tail _ hne]
          rw [hhd0]
      obtain ⟨a', b', ha', hab'⟩ := this
      rw [hab', hfirst a' b' ha']
      obtain ⟨r, hr⟩ := splitOn_head b'
      rw [hr]
      simp
  · intro h0
    rw [hraw, hsingle h0]

/-- C1: when the three queries of a poll succeed, the application name computed by
`IsActiveWindowChange` (which is the tracker's `ActiveWindow` after the call) is
overridden only when the `ActiveWindow` recorded at the start of the call is one of the
18 terminal names, and then from the new title alone: `"NeoVim"` if it contains `"Nvim"`,
else `"Vim"` if it contains `"Vim"`, else `"LunarVim"` if it contains `"NVIM"`, else the
raw class name; outside the terminal set the raw class name is kept. -/
theorem editor_override_spec (x : XServer) (d : XDisplay) (aw : Nat)
    (awClass awTitle : GoString) (hf : x.GetInputFocus = .ok aw)
    (hc : x.GetProperty aw AtomWmClass = .ok awClass)
    (ht : x.GetProperty aw AtomWmName = .ok awTitle) :
    terminals.length = 18 ∧
    (IsActiveWindowChange x d).1.ActiveWindow = normalizedName d.ActiveWindow awClass awTitle ∧
    normalizedName d.ActiveWindow awClass awTitle =
      (if d.ActiveWindow ∈ terminals then
        if str "Nvim" <:+: awTitle then str "NeoVim"
        else if str "Vim" <:+: awTitle then str "Vim"
        else if str "NVIM" <:+: awTitle then str "LunarVim"
        else rawAppName awClass
      else rawAppName awClass) := by
  refine ⟨by decide, ?_, ?_⟩
  · rw [IsActiveWindowChange_ok x d aw awClass awTitle hf hc ht]
    split
    · rfl
    · rename_i h
      simpa using h
  · simp only [normalizedName, stringInSlice_iff, Contains_iff]

theorem editor_override_spec_witness :
    terminals.length = 18 ∧
    (IsActiveWindowChange (kitty "NVIM opened")
      ⟨[], str "Kitty", str "Firefox"⟩).1.ActiveWindow =
      normalizedName (str "Kitty") (str "kitty\x00Kitty\x00") (str "NVIM opened") ∧
    normalizedName (str "Kitty") (str "kitty\x00Kitty\x00") (str "NVIM opened") =
      (if str "Kitty" ∈ terminals then
        if str "Nvim" <:+: str "NVIM opened" then str "NeoVim"
        else if str "Vim" <:+: str "NVIM opened" then str "Vim"
        else if str "NVIM" <:+: str "NVIM opened" then str "LunarVim"
        else rawAppName (str "kitty\x00Kitty\x00")
      else rawAppName (str "kitty\x00Kitty\x00")) :=
  editor_override_spec (kitty "NVIM opened") ⟨[], str "Kitty", str "Firefox"⟩ 1
    (str "kitty\x00Kitty\x00") (str "NVIM opened") rfl rfl rfl

/-- C2: when the three queries of a poll succeed, `IsActiveWindowChange` returns no error
and `changed = true` exactly when the normalized name differs from `ActiveWindow`; in
that case `PreviousWindow` becomes the old `ActiveWindow`, `ActiveWindow` becomes the
normalized name and `Usage` is kept; otherwise `changed = false` and the tracker is left
as it was. -/
theorem poll_change_spec (x : XServer) (d : XDisplay) (aw : Nat)
    (awClass awTitle : GoString) (hf : x.GetInputFocus = .ok aw)
    (hc : x.GetProperty aw AtomWmClass = .ok awClass)
    (ht : x.GetProperty aw AtomWmName = .ok awTitle) :
    (IsActiveWindowChange x d).2.2 = none ∧
    ((IsActiveWindowChange x d).2.1 = true ↔
      normalizedName d.ActiveWindow awClass awTitle ≠ d.ActiveWindow) ∧
    (normalizedName d.ActiveWindow awClass awTitle ≠ d.ActiveWindow →
      (IsActiveWindowChange x d).1.PreviousWindow = d.ActiveWindow ∧
      (IsActiveWindowChange x d).1.ActiveWindow =
        normalizedName d.ActiveWindow awClass awTitle ∧
      (IsActiveWindowChange x d).1.Usage = d.Usage) ∧
    (normalizedName d.ActiveWindow awClass awTitle = d.ActiveWindow →
      (IsActiveWindowChange x d).2.1 = false ∧ (IsActiveWindowChange x d).1 = d) := by
  rw [IsActiveWindowChange_ok x d aw awClass awTitle hf hc ht]
  by_cases h : d.ActiveWindow = normalizedName d.ActiveWindow awClass awTitle
  · have h' := h.symm
    simp [h']
  · have h' : ¬ normalizedName d.ActiveWindow awClass awTitle = d.ActiveWindow :=
      fun e => h e.symm
    simp [h, h']

theorem poll_change_spec_witness :
    (IsActiveWindowChange firefox ⟨[], str "Kitty", str "Firefox"⟩).2.2 = none ∧
    ((IsActiveWindowChange firefox ⟨[], str "Kitty", str "Firefox"⟩).2.1 = true ↔
      normalizedName (str "Kitty") (str "Navigator\x00Firefox\x00") (str "Mozilla Firefox")
        ≠ str "Kitty") ∧
    (normalizedName (str "Kitty") (str "Navigator\x00Firefox\x00") (str "Mozilla Firefox")
        ≠ str "Kitty" →
      (IsActiveWindowChange firefox ⟨[], str "Kitty", str "Firefox"⟩).1.PreviousWindow
        = str "Kitty" ∧
      (IsActiveWindowChange firefox ⟨[], str "Kitty", str "Firefox"⟩).1.ActiveWindow =
        normalizedName (str "Kitty") (str "Navigator\x00Firefox\x00") (str "Mozilla Firefox") ∧
      (IsActiveWindowChange firefox ⟨[], str "Kitty", str "Firefox"⟩).1.Usage = []) ∧
    (normalizedName (str "Kitty") (str "Navigator\x00Firefox\x00") (str "Mozilla Firefox")
        = str "Kitty" →
      (IsActiveWindowChange firefox ⟨[], str "Kitty", str "Firefox"⟩).2.1 = false ∧
      (IsActiveWindowChange firefox ⟨[], str "Kitty", str "Firefox"⟩).1
        = ⟨[], str "Kitty", str "Firefox"⟩) :=
  poll_change_spec firefox ⟨[], str "Kitty", str "Firefox"⟩ 1
    (str "Navigator\x00Firefox\x00") (str "Mozilla Firefox") rfl rfl rfl

/-- C3: when the focus lookup fails, or it succeeds and the class fetch fails, or both
succeed and the title fetch fails, `IsActiveWindowChange` returns that error with
`changed = false` and leaves the tracker (`ActiveWindow`, `PreviousWindow`, `Usage`)
as it was. -/
theorem poll_error_spec (x : XServer) (d : XDisplay) (err : XError)
    (h : x.GetInputFocus = .error err ∨
      (∃ aw, x.GetInputFocus = .ok aw ∧ x.GetProperty aw AtomWmClass = .error err) ∨
      (∃ aw awClass, x.GetInputFocus = .ok aw ∧ x.GetProperty aw AtomWmClass = .ok awClass ∧
        x.GetProperty aw AtomWmName = .error err)) :
    IsActiveWindowChange x d = (d, false, some err) := by
  rcases h with h | ⟨aw, h1, h2⟩ | ⟨aw, awClass, h1, h2, h3⟩
  · simp only [IsActiveWindowChange, h]
  · simp only [IsActiveWindowChange, h1, h2]
  · simp only [IsActiveWindowChange, h1, h2, h3]

theorem poll_error_spec_witness :
    IsActiveWindowChange
      ⟨.ok 1, fun _ atom => if atom = AtomWmClass then .ok (str "kitty\x00Kitty\x00")
        else .error ⟨3⟩⟩
      ⟨[(str "Firefox", 7)], str "Kitty", str "Firefox"⟩ =
      (⟨[(str "Firefox", 7)], str "Kitty", str "Firefox"⟩, false, some ⟨3⟩) :=
  poll_error_spec _ _ ⟨3⟩ (Or.inr (Or.inr ⟨1, str "kitty\x00Kitty\x00", rfl, rfl, rfl⟩))

theorem IsActiveWindowChange_cases (x : XServer) (d : XDisplay) :
    (∃ err, IsActiveWindowChange x d = (d, false, some err)) ∨
    IsActiveWindowChange x d = (d, false, none) ∨
    (∃ name, name ≠ d.ActiveWindow ∧
      IsActiveWindowChange x d = (⟨d.Usage, name, d.ActiveWindow⟩, true, none)) := by
  cases hf : x.GetInputFocus with
  | error e => exact Or.inl ⟨e, by simp only [IsActiveWindowChange, hf]⟩
  | ok aw =>
    cases hc : x.GetProperty aw AtomWmClass with
    | error e => exact Or.inl ⟨e, by simp only [IsActiveWindowChange, hf, hc]⟩
    | ok awClass =>
      cases ht : x.GetProperty aw AtomWmName with
      | error e => exact Or.inl ⟨e, by simp only [IsActiveWindowChange, hf, hc, ht]⟩
      | ok awTitle =>
        rw [IsActiveWindowChange_ok x d aw awClass awTitle hf hc ht]
        by_cases h : d.ActiveWindow = normalizedName d.ActiveWindow awClass awTitle
        · right; left
          simp [← h]
        · right; right
          exact ⟨_, fun e => h e.symm, by simp [h]⟩

/-! ## The ledger -/

theorem Ledger.get_set (m : Ledger) (k a : GoString) (v : Int) :
    Ledger.get (Ledger.set m k v) a = if a = k then v else Ledger.get m a := by
  induction m with
  | nil =>
    by_cases h : k = a
    · simp [Ledger.get, Ledger.set, h]
    · have h' : ¬ a = k := fun e => h e.symm
      simp [Ledger.get, Ledger.set, h, h']
  | cons p m ih =>
    obtain ⟨k', v'⟩ := p
    by_cases hk : k' = k
    · subst hk
      by_cases ha : k' = a
      · simp [Ledger.get, Ledger.set, ha]
      · have ha' : ¬ a = k' := fun e => ha e.symm
        simp [Ledger.get, Ledger.set, ha, ha']
    · by_cases ha : k' = a
      · subst ha
        simp [Ledger.get, Ledger.set, hk]
      · simp [Ledger.get, Ledger.set, hk, ha, ih]

theorem Ledger.total_set (m : Ledger) (k : GoString) (v : Int) :
    Ledger.total (Ledger.set m k v) = Ledger.total m - Ledger.get m k + v := by
  induction m with
  | nil => simp [Ledger.total, Ledger.set, Ledger.get]
  | cons p m ih =>
    obtain ⟨k', v'⟩ := p
    by_cases hk : k' = k
    · simp only [Ledger.total, Ledger.set, Ledger.get, hk, if_true, List.map_cons,
        List.sum_cons]
      ring
    · simp only [Ledger.total] at ih
      simp only [Ledger.total, Ledger.set, Ledger.get, hk, if_false, List.map_cons,
        List.sum_cons, ih]
      ring

theorem Ledger.Nonneg.set {m : Ledger} (h : m.Nonneg) (k : GoString) {v : Int} (hv : 0 ≤ v) :
    (Ledger.set m k v).Nonneg := by
  induction m with
  | nil =>
    intro p hp
    simp only [Ledger.set, List.mem_singleton] at hp
    subst hp
    exact hv
  | cons q m ih =>
    obtain ⟨k', v'⟩ := q
    have hm : Ledger.Nonneg m := fun p hp => h p (List.mem_cons_of_mem _ hp)
    intro p hp
    by_cases hk : k' = k
    · simp only [Ledger.set, hk, if_true, List.mem_cons] at hp
      rcases hp with rfl | hp
      · exact hv
      · exact hm p hp
    · simp only [Ledger.set, hk, if_false, List.mem_cons] at hp
      rcases hp with rfl | hp
      · exact h _ (List.mem_cons_self _ _)
      · exact ih hm p hp

theorem Ledger.Nonneg.get_bounds {m : Ledger} (h : m.Nonneg) (k : GoString) :
    0 ≤ Ledger.get m k ∧ Ledger.get m k ≤ Ledger.total m := by
  induction m with
  | nil => simp [Ledger.get, Ledger.total]
  | cons q m ih =>
    obtain ⟨k', v'⟩ := q
    have hm : Ledger.Nonneg m := fun p hp => h p (List.mem_cons_of_mem _ hp)
    have hv : 0 ≤ v' := h (k', v') (List.mem_cons_self _ _)
    have ht : 0 ≤ Ledger.total m := le_trans (ih hm).1 (ih hm).2
    have ih' := ih hm
    simp only [Ledger.total] at ih' ht
    by_cases hk : k' = k
    · simp only [Ledger.get, hk, if_true, Ledger.total, List.map_cons, List.sum_cons]
      omega
    · simp only [Ledger.get, hk, if_false, Ledger.total, List.map_cons, List.sum_cons]
      omega

/-! ## Durations -/

theorem wrapInt64_eq (x : Int) (h1 : -(2 ^ 63) ≤ x) (h2 : x < 2 ^ 63) : wrapInt64 x = x := by
  unfold wrapInt64
  omega

theorem timeSince_eq (now startTime : Int) (h0 : 0 ≤ startTime) (h1 : startTime ≤ now)
    (h2 : now < 2 ^ 63) : timeSince now startTime = now - startTime := by
  have hw : wrapInt64 (now - startTime) = now - startTime :=
    wrapInt64_eq _ (by omega) (by omega)
  unfold timeSince
  simp only [hw]
  rw [if_neg (by omega), if_neg (by omega)]

theorem clockOK_bounds (t0 : Int) (ticks : List Tick) (h : clockOK t0 ticks = true) :
    0 ≤ t0 ∧ t0 < 2 ^ 63 := by
  induction ticks generalizing t0 with
  | nil => simpa [clockOK] using h
  | cons t ticks ih =>
    simp only [clockOK, Bool.and_eq_true, decide_eq_true_eq] at h
    have := ih t.now h.2
    omega

theorem clockOK_mono (a b : Int) (ticks : List Tick) (ha : 0 ≤ a) (hab : a ≤ b)
    (h : clockOK b ticks = true) : clockOK a ticks = true := by
  cases ticks with
  | nil =>
    simp only [clockOK, Bool.and_eq_true, decide_eq_true_eq] at h ⊢
    omega
  | cons t ticks =>
    simp only [clockOK, Bool.and_eq_true, decide_eq_true_eq] at h ⊢
    refine ⟨⟨⟨ha, ?_⟩, h.1.2⟩, h.2⟩
    omega

theorem clockOK_since_le_now (t0 : Int) (ticks : List Tick) (h : clockOK t0 ticks = true) :
    ∀ t ∈ ticks, t.since ≤ t.now := by
  induction ticks generalizing t0 with
  | nil => simp
  | cons t ticks ih =>
    simp only [clockOK, Bool.and_eq_true, decide_eq_true_eq] at h
    intro u hu
    rcases List.mem_cons.mp hu with rfl | hu
    · exact h.1.2
    · exact ih t.now h.2 u hu

/-! ## The watch loop: one iteration -/

theorem loopBody_of_error (ticks : List Tick) (date : GoString) (s : LoopState) (t : Tick)
    (err : XError) (h : IsActiveWindowChange t.x s.display = (s.display, false, some err)) :
    loopBody date s t = s ∧ segmentsFrom date s (t :: ticks) = segmentsFrom date s ticks := by
  have h1 : loopBody date s t = s := by
    simp only [loopBody, h]
  refine ⟨h1, ?_⟩
  simp only [segmentsFrom, h, h1, List.nil_append]

theorem loopBody_of_same (ticks : List Tick) (date : GoString) (s : LoopState) (t : Tick)
    (h : IsActiveWindowChange t.x s.display = (s.display, false, none)) :
    loopBody date s t = s ∧ segmentsFrom date s (t :: ticks) = segmentsFrom date s ticks := by
  have h1 : loopBody date s t = s := by
    simp [loopBody, h]
  refine ⟨h1, ?_⟩
  simp only [segmentsFrom, h, h1, List.nil_append]

theorem loopBody_of_change (ticks : List Tick) (date : GoString) (s : LoopState) (t : Tick)
    (name : GoString)
    (h : IsActiveWindowChange t.x s.display =
      (⟨s.display.Usage, name, s.display.ActiveWindow⟩, true, none)) :
    loopBody date s t =
      { display :=
          ⟨s.display.Usage.set s.display.ActiveWindow
            (wrapInt64 (s.display.Usage.get s.display.ActiveWindow +
              timeSince t.since s.startTime)), name, s.display.ActiveWindow⟩
        db := s.db ++ [⟨s.display.ActiveWindow, date,
          wrapInt64 (s.display.Usage.get s.display.ActiveWindow +
            timeSince t.since s.startTime)⟩]
        startTime := t.now } ∧
    segmentsFrom date s (t :: ticks) =
      ⟨s.display.ActiveWindow, s.startTime, t.since⟩ ::
        segmentsFrom date (loopBody date s t) ticks := by
  constructor
  · simp [loopBody, h, Ledger.get_set]
  · simp only [segmentsFrom, h, List.singleton_append]

/-! ## The watch loop: a run -/

theorem runLoop_exact (date : GoString) (ticks : List Tick) :
    ∀ s : LoopState, s.display.Usage.Nonneg → s.display.Usage.total ≤ s.startTime →
      clockOK s.startTime ticks = true →
      (runLoop date s ticks).display.Usage =
        applyCredits s.display.Usage (segmentsFrom date s ticks) ∧
      (runLoop date s ticks).db = s.db ++ flushLog date s.display.Usage (segmentsFrom date s ticks) ∧
      (∀ g ∈ segmentsFrom date s ticks, 0 ≤ g.length) := by
  induction ticks with
  | nil =>
    intro s _ _ _
    simp [runLoop, segmentsFrom, applyCredits, flushLog]
  | cons t ticks ih =>
    intro s hn ht hc
    have hb := clockOK_bounds _ _ hc
    simp only [clockOK, Bool.and_eq_true, decide_eq_true_eq] at hc
    obtain ⟨⟨⟨h0, h1⟩, h2⟩, h3⟩ := hc
    have hrun : runLoop date s (t :: ticks) = runLoop date (loopBody date s t) ticks := rfl
    have hrest : clockOK s.startTime ticks = true :=
      clockOK_mono _ _ _ h0 (le_trans h1 h2) h3
    rcases IsActiveWindowChange_cases t.x s.display with ⟨e, he⟩ | he | ⟨name, _, he⟩
    · obtain ⟨hl, hs⟩ := loopBody_of_error ticks date s t e he
      rw [hrun, hl, hs]
      exact ih s hn ht hrest
    · obtain ⟨hl, hs⟩ := loopBody_of_same ticks date s t he
      rw [hrun, hl, hs]
      exact ih s hn ht hrest
    · obtain ⟨hl, hs⟩ := loopBody_of_change ticks date s t name he
      have hnow := clockOK_bounds _ _ h3
      have hg := hn.get_bounds s.display.ActiveWindow
      have hsince : timeSince t.since s.startTime = t.since - s.startTime :=
        timeSince_eq _ _ h0 h1 (by omega)
      have hwrap : wrapInt64 (s.display.Usage.get s.display.ActiveWindow +
          timeSince t.since s.startTime) =
          s.display.Usage.get s.display.ActiveWindow + (t.since - s.startTime) := by
        rw [hsince]
        exact wrapInt64_eq _ (by omega) (by omega)
      rw [hwrap] at hl
      have hU : (loopBody date s t).display.Usage =
          credit s.display.Usage ⟨s.display.ActiveWindow, s.startTime, t.since⟩ := by
        rw [hl]; rfl
      have hn' : (loopBody date s t).display.Usage.Nonneg := by
        rw [hl]
        exact hn.set _ (by omega)
      have ht' : (loopBody date s t).display.Usage.total ≤ (loopBody date s t).startTime := by
        rw [hl]
        simp only [Ledger.total_set]
        omega
      have hc' : clockOK (loopBody date s t).startTime ticks = true := by
        rw [hl]; exact h3
      obtain ⟨i1, i2, i3⟩ := ih (loopBody date s t) hn' ht' hc'
      rw [hrun, hs]
      refine ⟨?_, ?_, ?_⟩
      · rw [i1, hU]; rfl
      · rw [i2, hU]
        have hdb : (loopBody date s t).db = s.db ++ [⟨s.display.ActiveWindow, date,
            s.display.Usage.get s.display.ActiveWindow + (t.since - s.startTime)⟩] := by
          rw [hl]
        rw [hdb]
        simp [flushLog, Segment.length]
      · intro g hgm
        rcases List.mem_cons.mp hgm with rfl | hgm
        · simp only [Segment.length]; omega
        · exact i3 g hgm

theorem segmentsFrom_chain (date : GoString) (ticks : List Tick) :
    ∀ s : LoopState,
      (∀ g, (segmentsFrom date s ticks).head? = some g → g.start = s.startTime) ∧
      List.Chain' (fun a b : Segment => ∃ t ∈ ticks, a.stop = t.since ∧ b.start = t.now)
        (segmentsFrom date s ticks) := by
  induction ticks with
  | nil =>
    intro s
    simp [segmentsFrom]
  | cons t ticks ih =>
    intro s
    have hweak : ∀ s', List.Chain'
        (fun a b : Segment => ∃ u ∈ t :: ticks, a.stop = u.since ∧ b.start = u.now)
        (segmentsFrom date s' ticks) := fun s' =>
      List.Chain'.imp (fun a b ⟨u, hu, h⟩ => ⟨u, List.mem_cons_of_mem _ hu, h⟩) (ih s').2
    rcases IsActiveWindowChange_cases t.x s.display with ⟨e, he⟩ | he | ⟨name, _, he⟩
    · obtain ⟨_, hs⟩ := loopBody_of_error ticks date s t e he
      rw [hs]
      exact ⟨(ih s).1, hweak s⟩
    · obtain ⟨_, hs⟩ := loopBody_of_same ticks date s t he
      rw [hs]
      exact ⟨(ih s).1, hweak s⟩
    · obtain ⟨hl, hs⟩ := loopBody_of_change ticks date s t name he
      rw [hs]
      refine ⟨by simp, ?_⟩
      rw [List.chain'_cons']
      refine ⟨?_, hweak _⟩
      intro g hg
      refine ⟨t, List.mem_cons_self _ _, rfl, ?_⟩
      rw [(ih (loopBody date s t)).1 g hg, hl]

/-! ## Exact crediting -/

theorem creditSum_cons (a : GoString) (g : Segment) (segs : List Segment) :
    creditSum a (g :: segs) = (if g.app = a then g.length else 0) + creditSum a segs := by
  by_cases h : g.app = a <;> simp [creditSum, List.filter_cons, h]

theorem applyCredits_get (segs : List Segment) :
    ∀ (m : Ledger) (a : GoString),
      (applyCredits m segs).get a = m.get a + creditSum a segs := by
  induction segs with
  | nil => intro m a; simp [applyCredits, creditSum]
  | cons g segs ih =>
    intro m a
    have h : applyCredits m (g :: segs) = applyCredits (credit m g) segs := rfl
    rw [h, ih, creditSum_cons, credit, Ledger.get_set]
    by_cases hga : g.app = a
    · subst hga
      simp
      ring
    · have hag : ¬ a = g.app := fun e => hga e.symm
      simp [hga, hag]

theorem applyCredits_total (segs : List Segment) :
    ∀ m : Ledger, (applyCredits m segs).total = m.total + (segs.map Segment.length).sum := by
  induction segs with
  | nil => intro m; simp [applyCredits]
  | cons g segs ih =>
    intro m
    have h : applyCredits m (g :: segs) = applyCredits (credit m g) segs := rfl
    rw [h, ih, credit, Ledger.total_set]
    simp only [List.map_cons, List.sum_cons]
    ring

theorem flushLog_length (date : GoString) (segs : List Segment) :
    ∀ m : Ledger, (flushLog date m segs).length = segs.length := by
  induction segs with
  | nil => intro m; rfl
  | cons g segs ih => intro m; simp [flushLog, ih]

theorem flushLog_getElem (date : GoString) (segs : List Segment) :
    ∀ (m : Ledger) (i : Nat) (g : Segment), segs[i]? = some g →
      (flushLog date m segs)[i]? =
        some ⟨g.app, date, m.get g.app + creditSum g.app (segs.take (i + 1))⟩ := by
  induction segs with
  | nil => intro m i g h; simp at h
  | cons g0 segs ih =>
    intro m i g h
    cases i with
    | zero =>
      simp only [List.getElem?_cons_zero, Option.some.injEq] at h
      subst h
      simp [flushLog, creditSum]
    | succ i =>
      simp only [List.getElem?_cons_succ] at h
      simp only [flushLog, List.getElem?_cons_succ, List.take_succ_cons]
      rw [ih (credit m g0) i g h, creditSum_cons, credit, Ledger.get_set]
      by_cases hga : g0.app = g.app
      · simp [hga]
        ring
      · have hag : ¬ g.app = g0.app := fun e => hga e.symm
        simp [hga, hag]

theorem creditSum_take_mono (a : GoString) (segs : List Segment) :
    ∀ i j : Nat, (∀ g ∈ segs, 0 ≤ g.length) → i ≤ j →
      creditSum a (segs.take i) ≤ creditSum a (segs.take j) := by
  induction segs with
  | nil => intro i j _ _; simp
  | cons g segs ih =>
    intro i j hpos hij
    have hpos' : ∀ g ∈ segs, 0 ≤ g.length := fun x hx => hpos x (List.mem_cons_of_mem _ hx)
    have hg : 0 ≤ g.length := hpos g (List.mem_cons_self _ _)
    have hnn : ∀ k, 0 ≤ creditSum a (segs.take k) := by
      intro k
      have := ih 0 k hpos' (Nat.zero_le _)
      simpa [creditSum] using this
    cases i with
    | zero =>
      cases j with
      | zero => simp
      | succ j =>
        simp only [List.take_zero, List.take_succ_cons, creditSum_cons]
        have h0 : creditSum a [] = 0 := by simp [creditSum]
        have := hnn j
        split <;> omega
    | succ i =>
      cases j with
      | zero => omega
      | succ j =>
        simp only [List.take_succ_cons, creditSum_cons]
        have := ih i j hpos' (by omega)
        omega

theorem sum_add_flushGaps (segs : List Segment) :
    ∀ g0 : Segment,
      ((g0 :: segs).map Segment.length).sum + flushGaps (g0 :: segs) =
        lastChangeAt 0 (g0 :: segs) - g0.start := by
  induction segs with
  | nil => intro g0; simp [flushGaps, lastChangeAt, Segment.length]
  | cons g1 segs ih =>
    intro g0
    have h := ih g1
    have hl : lastChangeAt 0 (g0 :: g1 :: segs) = lastChangeAt 0 (g1 :: segs) := by
      simp [lastChangeAt, List.getLast?_cons_cons]
    simp only [List.map_cons, List.sum_cons, flushGaps, hl] at h ⊢
    simp only [Segment.length] at h ⊢
    omega

theorem flushGaps_nonneg (segs : List Segment)
    (h : List.Chain' (fun a b : Segment => a.stop ≤ b.start) segs) : 0 ≤ flushGaps segs := by
  induction segs with
  | nil => simp [flushGaps]
  | cons g0 segs ih =>
    cases segs with
    | nil => simp [flushGaps]
    | cons g1 segs =>
      rw [List.chain'_cons] at h
      have := ih h.2
      simp only [flushGaps]
      omega

theorem flushGaps_eq_zero (segs : List Segment)
    (h : List.Chain' (fun a b : Segment => b.start = a.stop) segs) : flushGaps segs = 0 := by
  induction segs with
  | nil => simp [flushGaps]
  | cons g0 segs ih =>
    cases segs with
    | nil => simp [flushGaps]
    | cons g1 segs =>
      rw [List.chain'_cons] at h
      have := ih h.2
      simp only [flushGaps]
      omega

/-! ## The watch loop: what is persisted -/

/-- C4, as stated, fails: with a clock reading (5) earlier than the segment start (10) at
the detected change, the elapsed time is not clamped and the loop passes `-5` to
`InsertOrUpdateAppUsage`. -/
theorem negative_duration_persisted :
    (runLoop someDate (initialState 10) [⟨firefox, 5, 5⟩]).db = [⟨[], someDate, -5⟩] ∧
    (runLoop someDate (initialState 10) [⟨firefox, 5, 5⟩]).display.Usage = [([], -5)] ∧
    ¬ (∀ c ∈ (runLoop someDate (initialState 10) [⟨firefox, 5, 5⟩]).db, 0 ≤ c.usage) := by
  decide

/-- C4, amended: for every sequence of poll results whose clock readings are well formed
(monotonic readings that never decrease), every value the watch loop passes to
`InsertOrUpdateAppUsage` is non-negative. -/
theorem persisted_nonneg (date : GoString) (start : Int) (ticks : List Tick)
    (h : clockOK start ticks = true) :
    ∀ c ∈ (runLoop date (initialState start) ticks).db, 0 ≤ c.usage := by
  have hb := clockOK_bounds _ _ h
  obtain ⟨_, h2, h3⟩ := runLoop_exact date ticks (initialState start)
    (by intro p hp; simp [initialState] at hp) (by simp [initialState, Ledger.total]; omega) h
  intro c hc
  rw [h2] at hc
  simp only [initialState, List.nil_append] at hc
  obtain ⟨i, hi, hci⟩ := List.getElem_of_mem hc
  have hlen := flushLog_length date (segmentsFrom date (initialState start) ticks) []
  simp only [initialState] at hlen
  have hi' : i < (segmentsFrom date ⟨⟨[], [], []⟩, [], start⟩ ticks).length := by omega
  have hget := flushLog_getElem date _ [] i _ (List.getElem?_eq_getElem hi')
  rw [List.getElem?_eq_getElem hi, hci] at hget
  simp only [Option.some.injEq] at hget
  rw [hget]
  have hmono := creditSum_take_mono
    ((segmentsFrom date ⟨⟨[], [], []⟩, [], start⟩ ticks)[i]).app _ 0 (i + 1) h3 (Nat.zero_le _)
  simp only [List.take_zero] at hmono
  simpa [creditSum, Ledger.get] using hmono

theorem persisted_nonneg_witness :
    clockOK 0 [⟨firefox, 100, 150⟩, ⟨kitty "no editor", 250, 300⟩] = true ∧
    ∀ c ∈ (runLoop someDate (initialState 0)
      [⟨firefox, 100, 150⟩, ⟨kitty "no editor", 250, 300⟩]).db, 0 ≤ c.usage :=
  ⟨by decide, persisted_nonneg someDate 0 _ (by decide)⟩

/-- C5, as stated, fails: from the initial state, the first detected change (to
`"Firefox"`) credits the time since loop start to the empty identity and calls
`InsertOrUpdateAppUsage` with the empty application name. -/
theorem empty_identity_persisted :
    (runLoop someDate (initialState 0) [⟨firefox, 100, 100⟩]).db = [⟨[], someDate, 100⟩] ∧
    (runLoop someDate (initialState 0) [⟨firefox, 100, 100⟩]).display.Usage = [([], 100)] ∧
    (runLoop someDate (initialState 0) [⟨firefox, 100, 100⟩]).display.ActiveWindow =
      str "Firefox" := by
  decide

/-- C5, amended: from the initial state, a successful poll that reads a non-empty
application name is a detected change whose outgoing application is the empty identity:
the loop credits the time elapsed since loop start to the empty name and calls
`InsertOrUpdateAppUsage` once, with the empty application name and that elapsed time; the
new application gets no entry at that change. -/
theorem first_change_credits_empty (date : GoString) (start since now : Int) (x : XServer)
    (aw : Nat) (awClass awTitle : GoString) (hf : x.GetInputFocus = .ok aw)
    (hc : x.GetProperty aw AtomWmClass = .ok awClass)
    (ht : x.GetProperty aw AtomWmName = .ok awTitle)
    (hraw : rawAppName awClass ≠ [])
    (h0 : 0 ≤ start) (h1 : start ≤ since) (h2 : since < 2 ^ 63) :
    loopBody date (initialState start) ⟨x, since, now⟩ =
      { display := ⟨[([], since - start)], rawAppName awClass, []⟩
        db := [⟨[], date, since - start⟩]
        startTime := now } := by
  have hn : normalizedName [] awClass awTitle = rawAppName awClass := by
    have : stringInSlice [] terminals = false := by decide
    simp [normalizedName, this]
  have hch : IsActiveWindowChange x (initialState start).display =
      (⟨(initialState start).display.Usage, rawAppName awClass,
        (initialState start).display.ActiveWindow⟩, true, none) := by
    rw [IsActiveWindowChange_ok x _ aw awClass awTitle hf hc ht]
    have hne : ¬ ([] : GoString) = rawAppName awClass := fun e => hraw e.symm
    simp [initialState, hn, hne]
  obtain ⟨hl, _⟩ := loopBody_of_change [] date (initialState start)
    ⟨x, since, now⟩ _ hch
  rw [hl]
  have hs : timeSince since start = since - start := timeSince_eq _ _ h0 h1 h2
  have hw : wrapInt64 (since - start) = since - start :=
    wrapInt64_eq _ (by omega) (by omega)
  simp [initialState, Ledger.get, Ledger.set, hs, hw]

theorem first_change_credits_empty_witness :
    loopBody someDate (initialState 40) ⟨firefox, 100, 150⟩ =
      { display := ⟨[([], 100 - 40)], rawAppName (str "Navigator\x00Firefox\x00"), []⟩
        db := [⟨[], someDate, 100 - 40⟩]
        startTime := 150 } :=
  first_change_credits_empty someDate 40 100 150 firefox 1 (str "Navigator\x00Firefox\x00")
    (str "Mozilla Firefox") rfl rfl rfl (by decide) (by decide) (by decide) (by decide)

/-- C6: at every detected change, the value passed to `InsertOrUpdateAppUsage` for
`(PreviousWindow, date)` is the ledger entry `Usage[PreviousWindow]` after the elapsed
time has been added to it.  Along a run from the initial state with well-formed clock
readings, the `i`-th call is made for the application of the `i`-th segment with the total
length of all segments of that application so far, and of two calls for the same
application the later one carries a value at least as large. -/
theorem flush_is_cumulative (date : GoString) (start : Int) (ticks : List Tick)
    (h : clockOK start ticks = true) :
    (∀ (s : LoopState) (t : Tick), (IsActiveWindowChange t.x s.display).2.1 = true →
      (loopBody date s t).db = s.db ++
        [⟨(loopBody date s t).display.PreviousWindow, date,
          (loopBody date s t).display.Usage.get (loopBody date s t).display.PreviousWindow⟩] ∧
      (loopBody date s t).display.Usage.get (loopBody date s t).display.PreviousWindow =
        wrapInt64 (s.display.Usage.get (loopBody date s t).display.PreviousWindow +
          timeSince t.since s.startTime)) ∧
    (runLoop date (initialState start) ticks).db.length =
      (segmentsFrom date (initialState start) ticks).length ∧
    (∀ (i : Nat) (g : Segment), (segmentsFrom date (initialState start) ticks)[i]? = some g →
      (runLoop date (initialState start) ticks).db[i]? =
        some ⟨g.app, date,
          creditSum g.app ((segmentsFrom date (initialState start) ticks).take (i + 1))⟩) ∧
    (∀ (i j : Nat) (c1 c2 : DBCall), i ≤ j →
      (runLoop date (initialState start) ticks).db[i]? = some c1 →
      (runLoop date (initialState start) ticks).db[j]? = some c2 →
      c1.appName = c2.appName → c1.usage ≤ c2.usage) := by
  have hb := clockOK_bounds _ _ h
  obtain ⟨_, h2, h3⟩ := runLoop_exact date ticks (initialState start)
    (by intro p hp; simp [initialState] at hp) (by simp [initialState, Ledger.total]; omega) h
  have hdb : (runLoop date (initialState start) ticks).db =
      flushLog date [] (segmentsFrom date (initialState start) ticks) := by
    rw [h2]; simp [initialState]
  have hlen := flushLog_length date (segmentsFrom date (initialState start) ticks) []
  have hidx : ∀ (i : Nat) (g : Segment),
      (segmentsFrom date (initialState start) ticks)[i]? = some g →
      (runLoop date (initialState start) ticks).db[i]? =
        some ⟨g.app, date,
          creditSum g.app ((segmentsFrom date (initialState start) ticks).take (i + 1))⟩ := by
    intro i g hg
    rw [hdb, flushLog_getElem date _ [] i g hg]
    simp [Ledger.get]
  refine ⟨?_, by rw [hdb, hlen], hidx, ?_⟩
  · intro s t hch
    rcases IsActiveWindowChange_cases t.x s.display with ⟨e, he⟩ | he | ⟨name, _, he⟩
    · rw [he] at hch; simp at hch
    · rw [he] at hch; simp at hch
    · obtain ⟨hl, _⟩ := loopBody_of_change [] date s t name he
      rw [hl]
      simp [Ledger.get_set]
  · intro i j c1 c2 hij hc1 hc2 happ
    have hi : i < (segmentsFrom date (initialState start) ticks).length := by
      have := (List.getElem?_eq_some_iff.mp hc1).1
      rw [hdb, hlen] at this
      exact this
    have hj : j < (segmentsFrom date (initialState start) ticks).length := by
      have := (List.getElem?_eq_some_iff.mp hc2).1
      rw [hdb, hlen] at this
      exact this
    have e1 := hidx i _ (List.getElem?_eq_getElem hi)
    have e2 := hidx j _ (List.getElem?_eq_getElem hj)
    rw [hc1] at e1
    rw [hc2] at e2
    simp only [Option.some.injEq] at e1 e2
    have happ' : ((segmentsFrom date (initialState start) ticks)[i]).app =
        ((segmentsFrom date (initialState start) ticks)[j]).app := by
      have a1 : c1.appName = ((segmentsFrom date (initialState start) ticks)[i]).app := by
        rw [e1]
      have a2 : c2.appName = ((segmentsFrom date (initialState start) ticks)[j]).app := by
        rw [e2]
      rw [← a1, ← a2, happ]
    rw [e1, e2]
    simp only []
    rw [happ']
    exact creditSum_take_mono _ _ (i + 1) (j + 1) h3 (by omega)

theorem flush_is_cumulative_witness :
    clockOK 0 twoChanges = true ∧
    ((∀ (s : LoopState) (t : Tick), (IsActiveWindowChange t.x s.display).2.1 = true →
      (loopBody someDate s t).db = s.db ++
        [⟨(loopBody someDate s t).display.PreviousWindow, someDate,
          (loopBody someDate s t).display.Usage.get
            (loopBody someDate s t).display.PreviousWindow⟩] ∧
      (loopBody someDate s t).display.Usage.get (loopBody someDate s t).display.PreviousWindow =
        wrapInt64 (s.display.Usage.get (loopBody someDate s t).display.PreviousWindow +
          timeSince t.since s.startTime)) ∧
    (runLoop someDate (initialState 0) twoChanges).db.length =
      (segmentsFrom someDate (initialState 0) twoChanges).length ∧
    (∀ (i : Nat) (g : Segment), (segmentsFrom someDate (initialState 0) twoChanges)[i]? = some g →
      (runLoop someDate (initialState 0) twoChanges).db[i]? =
        some ⟨g.app, someDate,
          creditSum g.app ((segmentsFrom someDate (initialState 0) twoChanges).take (i + 1))⟩) ∧
    (∀ (i j : Nat) (c1 c2 : DBCall), i ≤ j →
      (runLoop someDate (initialState 0) twoChanges).db[i]? = some c1 →
      (runLoop someDate (initialState 0) twoChanges).db[j]? = some c2 →
      c1.appName = c2.appName → c1.usage ≤ c2.usage)) :=
  ⟨by decide, flush_is_cumulative someDate 0 twoChanges (by decide)⟩

/-! ## The watch loop: time accounting -/

/-- C7, as stated, fails: the segment is restarted at a second clock reading, taken
after the flush.  With changes detected at readings 100 and 250 and restarts at 150 and
300, the loop start being 0, the ledger holds 100 + 100 = 200 while 250 elapsed between
loop start and the last detected change; after the first change `startTime` is 150, not
the instant 100 used to compute the elapsed time. -/
theorem flush_time_lost :
    clockOK 0 twoChanges = true ∧
    (runLoop someDate (initialState 0) twoChanges).display.Usage =
      [([], 100), (str "Firefox", 100)] ∧
    (runLoop someDate (initialState 0) twoChanges).display.Usage.total = 200 ∧
    lastChangeAt 0 (segmentsFrom someDate (initialState 0) twoChanges) - 0 = 250 ∧
    segmentsFrom someDate (initialState 0) twoChanges =
      [⟨[], 0, 100⟩, ⟨str "Firefox", 150, 250⟩] ∧
    (runLoop someDate (initialState 0) (twoChanges.take 1)).startTime = 150 := by
  decide

/-- The time between the two clock readings is lost also in a run at the pace of the loop:
with changes detected at readings 100 and 200000250 and restarts at 150 and 200000300, the
ledger holds 200000200 while 200000250 elapsed from loop start to the last detected
change. -/
theorem flush_time_lost_at_cadence :
    cadenceOK (initialState 0).display 0 twoChangesAtCadence = true ∧
    clockOK 0 twoChangesAtCadence = true ∧
    (runLoop someDate (initialState 0) twoChangesAtCadence).display.Usage.total = 200000200 ∧
    lastChangeAt 0 (segmentsFrom someDate (initialState 0) twoChangesAtCadence) - 0
      = 200000250 := by
  decide

/-- C7, amended: along a run from the initial state with well-formed clock readings, each
detected change credits the time from the segment start to the reading of `time.Since`
to the outgoing application, and restarts the segment at the later reading of `time.Now`
taken after the flush: the first segment starts at loop start and every other one at the
`time.Now` reading of the iteration that ended the one before.  Each application's ledger
entry is the total length of the segments during which it was the tracker's current
application; the sum of all entries plus the time between the two readings of the earlier
changes is the time from loop start to the last detected change, so no time is counted
twice, and none is lost when the two readings coincide at every iteration. -/
theorem time_accounting (date : GoString) (start : Int) (ticks : List Tick)
    (h : clockOK start ticks = true) :
    (∀ app : GoString, (runLoop date (initialState start) ticks).display.Usage.get app =
      creditSum app (segmentsFrom date (initialState start) ticks)) ∧
    (∀ g, (segmentsFrom date (initialState start) ticks).head? = some g → g.start = start) ∧
    List.Chain' (fun a b : Segment => ∃ t ∈ ticks, a.stop = t.since ∧ b.start = t.now)
      (segmentsFrom date (initialState start) ticks) ∧
    (runLoop date (initialState start) ticks).display.Usage.total +
        flushGaps (segmentsFrom date (initialState start) ticks) =
      lastChangeAt start (segmentsFrom date (initialState start) ticks) - start ∧
    0 ≤ flushGaps (segmentsFrom date (initialState start) ticks) ∧
    ((∀ t ∈ ticks, t.now = t.since) →
      (runLoop date (initialState start) ticks).display.Usage.total =
        lastChangeAt start (segmentsFrom date (initialState start) ticks) - start) := by
  have hb := clockOK_bounds _ _ h
  obtain ⟨h1, _, _⟩ := runLoop_exact date ticks (initialState start)
    (by intro p hp; simp [initialState] at hp) (by simp [initialState, Ledger.total]; omega) h
  obtain ⟨hhead, hchain⟩ := segmentsFrom_chain date ticks (initialState start)
  have hU : (runLoop date (initialState start) ticks).display.Usage =
      applyCredits [] (segmentsFrom date (initialState start) ticks) := h1
  have hle := clockOK_since_le_now _ _ h
  have htel : (runLoop date (initialState start) ticks).display.Usage.total +
        flushGaps (segmentsFrom date (initialState start) ticks) =
      lastChangeAt start (segmentsFrom date (initialState start) ticks) - start := by
    rw [hU, applyCredits_total]
    cases hs : segmentsFrom date (initialState start) ticks with
    | nil => simp [Ledger.total, flushGaps, lastChangeAt]
    | cons g0 segs =>
      have h0 : g0.start = start := by
        have := hhead g0 (by rw [hs]; rfl)
        simpa [initialState] using this
      have := sum_add_flushGaps segs g0
      have hl : lastChangeAt start (g0 :: segs) = lastChangeAt 0 (g0 :: segs) := by
        cases hgl : (g0 :: segs).getLast? with
        | none => simp at hgl
        | some g => simp [lastChangeAt, hgl]
      rw [hl, ← h0]
      simp only [Ledger.total, List.map_nil, List.sum_nil, zero_add]
      exact this
  refine ⟨?_, ?_, hchain, htel, ?_, ?_⟩
  · intro app
    rw [hU, applyCredits_get]
    simp [Ledger.get]
  · intro g hg
    simpa [initialState] using hhead g hg
  · apply flushGaps_nonneg
    refine List.Chain'.imp ?_ hchain
    rintro a b ⟨t, ht, h1, h2⟩
    rw [h1, h2]
    exact hle t ht
  · intro heq
    have hz : flushGaps (segmentsFrom date (initialState start) ticks) = 0 := by
      apply flushGaps_eq_zero
      refine List.Chain'.imp ?_ hchain
      rintro a b ⟨t, ht, h1, h2⟩
      rw [h1, h2]
      exact heq t ht
    rw [hz] at htel
    simpa using htel

theorem time_accounting_witness :
    clockOK 0 twoChanges = true ∧
    ((∀ app : GoString, (runLoop someDate (initialState 0) twoChanges).display.Usage.get app =
      creditSum app (segmentsFrom someDate (initialState 0) twoChanges)) ∧
    (∀ g, (segmentsFrom someDate (initialState 0) twoChanges).head? = some g → g.start = 0) ∧
    List.Chain' (fun a b : Segment => ∃ t ∈ twoChanges, a.stop = t.since ∧ b.start = t.now)
      (segmentsFrom someDate (initialState 0) twoChanges) ∧
    (runLoop someDate (initialState 0) twoChanges).display.Usage.total +
        flushGaps (segmentsFrom someDate (initialState 0) twoChanges) =
      lastChangeAt 0 (segmentsFrom someDate (initialState 0) twoChanges) - 0 ∧
    0 ≤ flushGaps (segmentsFrom someDate (initialState 0) twoChanges) ∧
    ((∀ t ∈ twoChanges, t.now = t.since) →
      (runLoop someDate (initialState 0) twoChanges).display.Usage.total =
        lastChangeAt 0 (segmentsFrom someDate (initialState 0) twoChanges) - 0)) :=
  ⟨by decide, time_accounting someDate 0 twoChanges (by decide)⟩

/-! ## The scenarios -/

/-- With a single poll in the NVIM-titled segment, a run at the pace of the loop credits
1.0 s to `"Firefox"`, 0.5 s to `"Kitty"` and 0.3 s to `"LunarVim"`. -/
theorem scenario_one_poll_in_nvim_segment :
    cadenceOK (initialState 0).display 0 scenarioOnePoll = true ∧
    (runLoop someDate (initialState 0) scenarioOnePoll).display.Usage =
      [([], 0), (str "Firefox", 1000000000), (str "Kitty", 500000000),
        (str "LunarVim", 300000000)] := by
  decide

/-- C10, at a failing input: from the initial tracker, three polls in a row that read the
same window (class `Kitty`, title "NVIM opened") are all reported as changes, and the
recorded name goes `"Kitty"`, `"LunarVim"`, `"Kitty"`. -/
theorem same_window_reported_as_change :
    (IsActiveWindowChange (kitty "NVIM opened") ⟨[], [], []⟩) =
      (⟨[], str "Kitty", []⟩, true, none) ∧
    (IsActiveWindowChange (kitty "NVIM opened") ⟨[], str "Kitty", []⟩) =
      (⟨[], str "LunarVim", str "Kitty"⟩, true, none) ∧
    (IsActiveWindowChange (kitty "NVIM opened") ⟨[], str "LunarVim", str "Kitty"⟩) =
      (⟨[], str "Kitty", str "LunarVim"⟩, true, none) := by
  decide

/-- A window whose title contains none of the three editor markers is stable: polled
twice in a row with the same report, the second poll is not a change. -/
theorem second_poll_stable_of_no_marker (d : XDisplay) (awClass awTitle : GoString)
    (h1 : Contains awTitle (str "Nvim") = false) (h2 : Contains awTitle (str "Vim") = false)
    (h3 : Contains awTitle (str "NVIM") = false) :
    IsActiveWindowChange (XServer.report awClass awTitle)
        (IsActiveWindowChange (XServer.report awClass awTitle) d).1 =
      ((IsActiveWindowChange (XServer.report awClass awTitle) d).1, false, none) := by
  have hn : ∀ a, normalizedName a awClass awTitle = rawAppName awClass := by
    intro a
    simp [normalizedName, h1, h2, h3]
  simp only [IsActiveWindowChange_report, hn]
  by_cases h : d.ActiveWindow = rawAppName awClass
  · simp [h]
  · simp [h]

end Watcher
